import Mathlib

/-!
Shallow embedding of the engine API tree subsystem
(`crates/engine/tree/src/tree/mod.rs`) and proofs about its claims.

Hashes (`B256`) are modelled as `Nat`, block numbers as `Nat`.
`HashMap` is modelled as an association list with replace-on-insert
semantics; `BTreeMap` as an association list kept sorted (strictly
ascending) by key.  External collaborators that are not part of the
source excerpt (payload validator, consensus rules, executor, persistent
provider, block buffer, invalid header cache) are modelled from their
contracts in the specification and are marked as such in doc comments.
Walks that follow parent-hash links in the Rust source are embedded with
an explicit fuel parameter; theorems about them carry a hypothesis that
the walk terminates within the supplied fuel.
-/

namespace EngineTree

/-- Lookup in an association list, returning the first value stored
under the key.  Models `HashMap::get` / `BTreeMap::get`. -/
def lookupA {α : Type} : List (Nat × α) → Nat → Option α
  | [], _ => none
  | (k, v) :: rest, h => if h = k then some v else lookupA rest h

/-- Insert into an association list, replacing any existing entry for
the key.  Models `HashMap::insert`. -/
def insertA {α : Type} (l : List (Nat × α)) (k : Nat) (v : α) : List (Nat × α) :=
  (k, v) :: l.filter (fun p => !(p.1 == k))

/-- Remove a key from an association list.  Models `HashMap::remove`. -/
def removeA {α : Type} (l : List (Nat × α)) (k : Nat) : List (Nat × α) :=
  l.filter (fun p => !(p.1 == k))

/-- A sealed block: the header fields the tree logic reads, together
with the block's own (sealed) hash.  Models `reth_primitives::SealedBlock`. -/
structure SealedBlock where
  hash : Nat
  parent_hash : Nat
  number : Nat
  difficulty : Nat
  deriving DecidableEq, Repr

/-- `Header::is_zero_difficulty` (difficulty == 0, the post-merge value). -/
def SealedBlock.is_zero_difficulty (b : SealedBlock) : Bool :=
  b.difficulty == 0

/-- A sealed block paired with the recovered transaction senders.
Models `reth_primitives::SealedBlockWithSenders`. -/
structure SealedBlockWithSenders where
  block : SealedBlock
  senders : List Nat
  deriving DecidableEq, Repr

/-- Per-block execution result, as assembled by `insert_block_inner`:
`ExecutionOutcome::new(state, receipts, first_block, requests)`.
State diffs, receipts and requests are opaque data here. -/
structure ExecutionOutcome where
  state : Nat
  receipts : List Nat
  first_block : Nat
  requests : List (List Nat)
  deriving DecidableEq, Repr

/-- An executed block stored in the in-memory tree.  Models the
`ExecutedBlock` struct of the source file. -/
structure ExecutedBlock where
  block : SealedBlock
  senders : List Nat
  execution_output : ExecutionOutcome
  hashed_state : Nat
  trie : Nat
  deriving DecidableEq, Repr

/-- Keeps track of the state of the tree: all executed blocks by hash,
and executed blocks grouped by their block number (sorted ascending,
modelling the `BTreeMap`). -/
structure TreeState where
  blocks_by_hash : List (Nat × ExecutedBlock)
  blocks_by_number : List (Nat × List ExecutedBlock)
  deriving DecidableEq, Repr

/-- The empty tree state. -/
def TreeState.empty : TreeState := ⟨[], []⟩

/-- `blocks_by_number.entry(n).or_default().push(e)`: append `e` to the
vector stored under key `n`, creating the entry at its sorted position
when absent. -/
def btInsertPush : List (Nat × List ExecutedBlock) → Nat → ExecutedBlock →
    List (Nat × List ExecutedBlock)
  | [], n, e => [(n, [e])]
  | (m, l) :: rest, n, e =>
    if n < m then (n, [e]) :: (m, l) :: rest
    else if n = m then (m, l ++ [e]) :: rest
    else (m, l) :: btInsertPush rest n e

/-- `TreeState::block_by_hash`. -/
def TreeState.block_by_hash (ts : TreeState) (hash : Nat) : Option SealedBlock :=
  (lookupA ts.blocks_by_hash hash).map (fun b => b.block)

/-- `TreeState::insert_executed`: add to the number index and to the
hash index.  (The source `debug_assert!`s that the hash was not already
present; that precondition is tracked by `ReachD` below, not here.) -/
def TreeState.insert_executed (ts : TreeState) (executed : ExecutedBlock) : TreeState :=
  { blocks_by_number := btInsertPush ts.blocks_by_number executed.block.number executed
    blocks_by_hash := insertA ts.blocks_by_hash executed.block.hash executed }

/-- Remove every hash of `toRemove` from the hash index: the body of the
`for block in to_remove` loop inside `remove_before`. -/
def removeEntries (byHash : List (Nat × ExecutedBlock)) (toRemove : List ExecutedBlock) :
    List (Nat × ExecutedBlock) :=
  toRemove.foldl (fun m b => removeA m b.block.hash) byHash

/-- The `while` loop of `TreeState::remove_before`: as long as the first
(number, vec) entry has number below the bound, pop it and drop its
blocks from the hash index. -/
def removeBeforeAux (block_number : Nat) :
    List (Nat × List ExecutedBlock) → List (Nat × ExecutedBlock) → TreeState
  | [], byHash => { blocks_by_hash := byHash, blocks_by_number := [] }
  | (m, l) :: rest, byHash =>
    if m < block_number then removeBeforeAux block_number rest (removeEntries byHash l)
    else { blocks_by_hash := byHash, blocks_by_number := (m, l) :: rest }

/-- `TreeState::remove_before`: remove blocks before the given block number. -/
def TreeState.remove_before (ts : TreeState) (block_number : Nat) : TreeState :=
  removeBeforeAux block_number ts.blocks_by_number ts.blocks_by_hash

/-- An execution payload as received from the consensus layer.  Only the
parent hash is read directly by `on_new_payload` before validation; the
remaining wire data is opaque. -/
structure Payload where
  parent_hash : Nat
  raw : Nat
  deriving DecidableEq, Repr

/-- The error returned by `ensure_well_formed_payload`, exposing the two
predicates `on_new_payload` queries on it. -/
structure WellFormedError where
  block_hash_mismatch : Bool
  invalid_versioned_hashes : Bool
  deriving DecidableEq, Repr

/-- `PayloadError::is_block_hash_mismatch`. -/
def WellFormedError.is_block_hash_mismatch (e : WellFormedError) : Bool :=
  e.block_hash_mismatch

/-- `PayloadError::is_invalid_versioned_hashes`. -/
def WellFormedError.is_invalid_versioned_hashes (e : WellFormedError) : Bool :=
  e.invalid_versioned_hashes

/-- The `validation_error` carried inside an INVALID payload status:
either the stringified well-formedness error (`PayloadStatusEnum::from(error)`)
or `PayloadValidationError::LinksToRejectedPayload`
(used by `prepare_invalid_response`). -/
inductive PayloadValidationError where
  | linksToRejectedPayload
  | wellFormed (e : WellFormedError)
  deriving DecidableEq, Repr

/-- `PayloadStatusEnum` of the engine API. -/
inductive PayloadStatusEnum where
  | valid
  | invalid (validation_error : PayloadValidationError)
  | syncing
  | accepted
  deriving DecidableEq, Repr

/-- `PayloadStatus`: a status plus the optional latest valid hash. -/
structure PayloadStatus where
  status : PayloadStatusEnum
  latest_valid_hash : Option Nat
  deriving DecidableEq, Repr

/-- `PayloadStatus::new`. -/
def PayloadStatus.new (status : PayloadStatusEnum) (latest_valid_hash : Option Nat) :
    PayloadStatus :=
  ⟨status, latest_valid_hash⟩

/-- `PayloadStatus::from_status` (no latest valid hash). -/
def PayloadStatus.from_status (status : PayloadStatusEnum) : PayloadStatus :=
  ⟨status, none⟩

/-- `PayloadStatus::with_latest_valid_hash`. -/
def PayloadStatus.with_latest_valid_hash (p : PayloadStatus) (hash : Nat) : PayloadStatus :=
  ⟨p.status, some hash⟩

/-- `PayloadStatus::is_valid`. -/
def PayloadStatus.is_valid (p : PayloadStatus) : Bool :=
  match p.status with
  | .valid => true
  | _ => false

/-- The actions that can be performed on the tree. -/
inductive TreeAction where
  | makeCanonical (target : Nat)
  deriving DecidableEq, Repr

/-- Events that can be emitted by the tree handler.  Backfill and
download payloads are opaque here. -/
inductive TreeEvent where
  | treeAction (a : TreeAction)
  | backfillAction (target : Nat)
  | download (request : Nat)
  deriving DecidableEq, Repr

/-- The outcome of a tree operation: an outcome plus an optional event. -/
structure TreeOutcome (T : Type) where
  outcome : T
  event : Option TreeEvent
  deriving DecidableEq, Repr

/-- `TreeOutcome::new`. -/
def TreeOutcome.new {T : Type} (outcome : T) : TreeOutcome T :=
  ⟨outcome, none⟩

/-- `TreeOutcome::with_event`. -/
def TreeOutcome.with_event {T : Type} (o : TreeOutcome T) (event : TreeEvent) : TreeOutcome T :=
  ⟨o.outcome, some event⟩

/-- Modelled from the spec (section 4.4): the invalid header cache stores a
header-shaped record carrying at least the parent hash of the known-bad
header; only the parent link is read by the tree logic. -/
structure InvalidHeader where
  parent_hash : Nat
  deriving DecidableEq, Repr

/-- Modelled from the spec (section 4.4):
`InvalidHeaderCache::insert_with_invalid_ancestor(head, ancestor_header)`
marks `head` invalid by association, storing the known-bad ancestor's
record under the key `head` so that the latest-valid-hash walk can
follow the parent link upward.  (LRU capacity bounding is irrelevant to
the claims and is not modelled.) -/
def insert_with_invalid_ancestor (cache : List (Nat × InvalidHeader)) (head : Nat)
    (header : InvalidHeader) : List (Nat × InvalidHeader) :=
  insertA cache head header

/-- The forkchoice triple received from the consensus layer. -/
structure ForkchoiceState where
  head_block_hash : Nat
  safe_block_hash : Nat
  finalized_block_hash : Nat
  deriving DecidableEq, Repr

/-- Tracks the state of the engine API internals: the tree state, the
forkchoice tracker (modelled by its `sync_target_state()` view, the only
part `on_new_payload` reads), the buffer of detached blocks (keyed by
block hash) and the invalid header cache. -/
structure EngineApiTreeState where
  tree_state : TreeState
  forkchoice_state_tracker : Option ForkchoiceState
  buffer : List (Nat × SealedBlockWithSenders)
  invalid_headers : List (Nat × InvalidHeader)

/-- The output of one executor run:
`execute((&block, U256::MAX)) -> { state, receipts, requests }`. -/
structure ExecOutput where
  state : Nat
  receipts : List Nat
  requests : List Nat
  deriving DecidableEq, Repr

/-- An opaque consensus rule violation (`ConsensusError`). -/
abbrev ConsensusError := Nat

/-- Provider (database/storage) faults. -/
inductive ProviderError where
  | stateForHashNotFound (hash : Nat)
  deriving DecidableEq, Repr

/-- The in-memory overlay state provider handed to the executor:
an ordered list of executed blocks (oldest first) over a historical
provider, the latter modelled by the hash it was opened at. -/
structure MemoryOverlayStateProvider where
  in_memory : List ExecutedBlock
  historical : Nat
  deriving DecidableEq, Repr

/-- `MemoryOverlayStateProvider::new`. -/
def MemoryOverlayStateProvider.new (in_memory : List ExecutedBlock) (historical : Nat) :
    MemoryOverlayStateProvider :=
  ⟨in_memory, historical⟩

/-- How a call into the embedded handler can fail: a reached `.unwrap()`
on an error value (a Rust panic), or an `Err` return of
`insert_block_inner` (`InsertBlockErrorKind`). -/
inductive InsertBlockErrorKind where
  | senderRecovery
  | consensus (e : ConsensusError)
  deriving DecidableEq, Repr

/-- The error channel of the embedded handler operations. -/
inductive RunError where
  | panic
  | insertErr (kind : InsertBlockErrorKind)
  deriving DecidableEq, Repr

/-- `InsertPayloadOk::*(BlockStatus)`, with the attachment payload of
`Valid` and the head/ancestor payloads of `Disconnected` elided (the
handler never reads them). -/
inductive BlockStatus where
  | valid
  | disconnected
  deriving DecidableEq, Repr

/-- The `Ok` result of block insertion. -/
inductive InsertPayloadOk where
  | inserted (status : BlockStatus)
  | alreadySeen (status : BlockStatus)
  deriving DecidableEq, Repr

/-- The tree handler (`EngineApiTreeHandlerImpl`).  External
collaborators — persistent provider, payload validator, sender
recovery, consensus rules and executor — are not part of the source
excerpt and are modelled from their contracts in the spec (sections 6 and
4.5) as function-valued fields.  `exec_calls` instruments the number of
executor invocations and is read by no operation. -/
structure EngineApiTreeHandlerImpl where
  provider_blocks : List (Nat × SealedBlock)
  ensure_well_formed_payload : Payload → Option Nat → Except WellFormedError SealedBlock
  recover_senders : SealedBlock → Option (List Nat)
  validate_header_with_total_difficulty : SealedBlockWithSenders → Option ConsensusError
  validate_header : SealedBlockWithSenders → Option ConsensusError
  validate_block_pre_execution : SealedBlockWithSenders → Option ConsensusError
  validate_block_post_execution : SealedBlock → ExecOutput → Option ConsensusError
  execute : SealedBlock → MemoryOverlayStateProvider → Except Nat ExecOutput
  state : EngineApiTreeState
  is_pipeline_active : Bool
  exec_calls : Nat

/-- Return block from database or in-memory state by hash
(`Self::block_by_hash`): the database is checked first, then the tree. -/
def block_by_hash (H : EngineApiTreeHandlerImpl) (hash : Nat) : Option SealedBlock :=
  match lookupA H.provider_blocks hash with
  | some block => some block
  | none => H.state.tree_state.block_by_hash hash

/-- Modelled from the spec: the persistent `StateProviderFactory` (not
part of the source excerpt) serves a historical state provider exactly
for the hashes present in the persistent store; an unknown hash is a
provider error (spec section 7, `ProviderError`).  The provider handle is
modelled by the hash it was opened at. -/
def state_by_block_hash (H : EngineApiTreeHandlerImpl) (hash : Nat) : Except ProviderError Nat :=
  if (lookupA H.provider_blocks hash).isSome then .ok hash
  else .error (.stateForHashNotFound hash)

/-- The `while let` walk of `Self::state_provider`: follow parent hashes
through `blocks_by_hash`, collecting the executed blocks oldest-first,
and return the first hash not found in the tree.  Fuel-indexed. -/
def sp_walk (tree : List (Nat × ExecutedBlock)) : Nat → Nat → List ExecutedBlock × Nat
  | 0, parent_hash => ([], parent_hash)
  | fuel + 1, parent_hash =>
    match lookupA tree parent_hash with
    | none => ([], parent_hash)
    | some executed =>
      let r := sp_walk tree fuel executed.block.parent_hash
      (r.1 ++ [executed], r.2)

/-- `Self::state_provider`: in-memory blocks overlaying the historical
state provider obtained for the first ancestor hash absent from the tree. -/
def state_provider (H : EngineApiTreeHandlerImpl) (fuel hash : Nat) :
    Except ProviderError MemoryOverlayStateProvider :=
  let r := sp_walk H.state.tree_state.blocks_by_hash fuel hash
  match state_by_block_hash H r.2 with
  | .error e => .error e
  | .ok historical => .ok (MemoryOverlayStateProvider.new r.1 historical)

/-- Modelled from the spec (section 4.3): `BlockBuffer::lowest_ancestor`
— starting at the given hash, follow parent hashes within the buffer
only and return the lowest-numbered buffered block along that chain;
`none` when the hash itself is not buffered.  Fuel-indexed. -/
def lowest_ancestor (buffer : List (Nat × SealedBlockWithSenders)) :
    Nat → Nat → Option SealedBlockWithSenders
  | 0, hash => lookupA buffer hash
  | fuel + 1, hash =>
    match lookupA buffer hash with
    | none => none
    | some b =>
      match lowest_ancestor buffer fuel b.block.parent_hash with
      | some c => some c
      | none => some b

/-- `Self::lowest_buffered_ancestor_or`: the parent hash of the lowest
buffered ancestor, or the hash passed in when nothing is buffered. -/
def lowest_buffered_ancestor_or (H : EngineApiTreeHandlerImpl) (fuel hash : Nat) : Nat :=
  match lowest_ancestor H.state.buffer fuel hash with
  | some b => b.block.parent_hash
  | none => hash

/-- The loop of `Self::latest_valid_hash_for_invalid_payload`: iterate
over ancestors in the invalid cache until the first hash with no cached
invalid ancestor, returning it when the tree or store has it. -/
def lvh_loop (H : EngineApiTreeHandlerImpl) : Nat → Nat → Option Nat
  | 0, _ => none
  | fuel + 1, current_hash =>
    match lookupA H.state.invalid_headers current_hash with
    | none => none
    | some header =>
      match lookupA H.state.invalid_headers header.parent_hash with
      | some _ => lvh_loop H fuel header.parent_hash
      | none =>
        if (block_by_hash H header.parent_hash).isSome then some header.parent_hash
        else none

/-- `Self::latest_valid_hash_for_invalid_payload`. -/
def latest_valid_hash_for_invalid_payload (H : EngineApiTreeHandlerImpl)
    (fuel parent_hash : Nat) : Option Nat :=
  if (block_by_hash H parent_hash).isSome then some parent_hash
  else lvh_loop H fuel parent_hash

/-- `Self::prepare_invalid_response`: substitute the zero hash when the
parent block is found and has non-zero difficulty (the terminal PoW
edge case), then walk for the latest valid hash;
`unwrap_or_default()` turns a missing result into the zero hash. -/
def prepare_invalid_response (H : EngineApiTreeHandlerImpl) (fuel parent_hash : Nat) :
    PayloadStatus :=
  let ph :=
    match block_by_hash H parent_hash with
    | some parent => if parent.is_zero_difficulty then parent_hash else 0
    | none => parent_hash
  (PayloadStatus.from_status
      (.invalid .linksToRejectedPayload)).with_latest_valid_hash
    ((latest_valid_hash_for_invalid_payload H fuel ph).getD 0)

/-- `Self::check_invalid_ancestor_with_head`: when the `check` hash is
in the invalid cache, build the INVALID response from the cached
header's parent and record `head` as invalid by association. -/
def check_invalid_ancestor_with_head (H : EngineApiTreeHandlerImpl)
    (fuel check head : Nat) : Option (EngineApiTreeHandlerImpl × PayloadStatus) :=
  match lookupA H.state.invalid_headers check with
  | none => none
  | some header =>
    let status := prepare_invalid_response H fuel header.parent_hash
    let H1 := { H with
      state := { H.state with
        invalid_headers := insert_with_invalid_ancestor H.state.invalid_headers head header } }
    some (H1, status)

/-- `Self::validate_block`: the three consensus checks, in source order. -/
def validate_block (H : EngineApiTreeHandlerImpl) (block : SealedBlockWithSenders) :
    Option ConsensusError :=
  match H.validate_header_with_total_difficulty block with
  | some e => some e
  | none =>
    match H.validate_header block with
    | some e => some e
    | none => H.validate_block_pre_execution block

/-- `Self::buffer_block`: consensus-validate, then insert into the
buffer (spec section 4.3; the buffer itself is not in the source excerpt). -/
def buffer_block (H : EngineApiTreeHandlerImpl) (block : SealedBlockWithSenders) :
    Except InsertBlockErrorKind EngineApiTreeHandlerImpl :=
  match validate_block H block with
  | some e => .error (.consensus e)
  | none =>
    .ok { H with
      state := { H.state with buffer := insertA H.state.buffer block.block.hash block } }

/-- `Self::buffer_block_without_senders`: recover senders, then buffer. -/
def buffer_block_without_senders (H : EngineApiTreeHandlerImpl) (block : SealedBlock) :
    Except InsertBlockErrorKind EngineApiTreeHandlerImpl :=
  match H.recover_senders block with
  | none => .error .senderRecovery
  | some senders => buffer_block H ⟨block, senders⟩

/-- `Self::insert_block_inner`.  The two `.unwrap()` calls of the source
(on `state_provider` and on the executor result) surface as `.panic`. -/
def insert_block_inner (H : EngineApiTreeHandlerImpl) (fuel : Nat)
    (block : SealedBlockWithSenders) :
    Except RunError (EngineApiTreeHandlerImpl × InsertPayloadOk) :=
  if (block_by_hash H block.block.hash).isSome then
    .ok (H, .alreadySeen .valid)
  else
    match validate_block H block with
    | some e => .error (.insertErr (.consensus e))
    | none =>
      match state_provider H fuel block.block.parent_hash with
      | .error _ => .error .panic
      | .ok sp =>
        let H1 := { H with exec_calls := H.exec_calls + 1 }
        match H.execute block.block sp with
        | .error _ => .error .panic
        | .ok output =>
          match H.validate_block_post_execution block.block output with
          | some e => .error (.insertErr (.consensus e))
          | none =>
            let executed : ExecutedBlock :=
              { block := block.block
                senders := block.senders
                execution_output :=
                  ⟨output.state, output.receipts, block.block.number, [output.requests]⟩
                hashed_state := output.state
                trie := 0 }
            .ok ({ H1 with
              state := { H1.state with
                tree_state := H1.state.tree_state.insert_executed executed } },
              .inserted .valid)

/-- `Self::insert_block` (error-kind wrapping is the identity here). -/
def insert_block (H : EngineApiTreeHandlerImpl) (fuel : Nat)
    (block : SealedBlockWithSenders) :
    Except RunError (EngineApiTreeHandlerImpl × InsertPayloadOk) :=
  insert_block_inner H fuel block

/-- `Self::insert_block_without_senders`. -/
def insert_block_without_senders (H : EngineApiTreeHandlerImpl) (fuel : Nat)
    (block : SealedBlock) :
    Except RunError (EngineApiTreeHandlerImpl × InsertPayloadOk) :=
  match H.recover_senders block with
  | none => .error (.insertErr .senderRecovery)
  | some senders => insert_block H fuel ⟨block, senders⟩

/-- The check hash used by `on_new_payload`'s invalid-ancestor step:
the lowest buffered ancestor, replaced by the block's own parent hash
when the block itself was the lowest buffered entry. -/
def check_hash_for (H : EngineApiTreeHandlerImpl) (fuel : Nat) (block : SealedBlock) : Nat :=
  let lba := lowest_buffered_ancestor_or H fuel block.hash
  if lba = block.hash then block.parent_hash else lba

/-- The tail of `on_new_payload`: attach a `MakeCanonical` event when
the outcome is VALID and the sync-target head equals the block hash. -/
def attach_canonical_event (H : EngineApiTreeHandlerImpl)
    (outcome : TreeOutcome PayloadStatus) (block_hash : Nat) : TreeOutcome PayloadStatus :=
  if outcome.outcome.is_valid then
    match H.state.forkchoice_state_tracker with
    | some target =>
      if target.head_block_hash = block_hash then
        outcome.with_event (.treeAction (.makeCanonical block_hash))
      else outcome
    | none => outcome
  else outcome

/-- `Self::on_new_payload`.  The `.unwrap()` calls on buffering and on
block insertion surface as `.panic`. -/
def on_new_payload (H : EngineApiTreeHandlerImpl) (fuel : Nat) (payload : Payload)
    (cancun_fields : Option Nat) :
    Except RunError (EngineApiTreeHandlerImpl × TreeOutcome PayloadStatus) :=
  let parent_hash := payload.parent_hash
  match H.ensure_well_formed_payload payload cancun_fields with
  | .error error =>
    let latest_valid_hash :=
      if error.is_block_hash_mismatch || error.is_invalid_versioned_hashes then none
      else latest_valid_hash_for_invalid_payload H fuel parent_hash
    let status := PayloadStatusEnum.invalid (.wellFormed error)
    .ok (H, TreeOutcome.new (PayloadStatus.new status latest_valid_hash))
  | .ok block =>
    let block_hash := block.hash
    match check_invalid_ancestor_with_head H fuel (check_hash_for H fuel block) block_hash with
    | some (H1, status) => .ok (H1, TreeOutcome.new status)
    | none =>
      if H.is_pipeline_active then
        match buffer_block_without_senders H block with
        | .error _ => .error .panic
        | .ok H1 =>
          let status := PayloadStatus.from_status .syncing
          .ok (H1, attach_canonical_event H1 (TreeOutcome.new status) block_hash)
      else
        match insert_block_without_senders H fuel block with
        | .error _ => .error .panic
        | .ok (H1, result) =>
          let status :=
            match result with
            | .inserted .valid => PayloadStatus.new .valid (some block_hash)
            | .alreadySeen .valid => PayloadStatus.new .valid (some block_hash)
            | .inserted .disconnected => PayloadStatus.new .syncing none
            | .alreadySeen .disconnected => PayloadStatus.new .syncing none
          .ok (H1, attach_canonical_event H1 (TreeOutcome.new status) block_hash)

/-! ### Claim-side predicates

Inductive descriptions of the walks, formalised from the wording of the
specification, against which the embedded functions are compared. -/

/-- The invalid-cache parent chain of spec section 4.5.4: from a starting
hash, follow the cached headers' parent links; `TerminalN cache h t n`
holds when the chain from `h` reaches, after `n` cache hits, the first
hash `t` that is absent from the cache. -/
inductive TerminalN (cache : List (Nat × InvalidHeader)) : Nat → Nat → Nat → Prop where
  | stop : ∀ h, lookupA cache h = none → TerminalN cache h h 0
  | step : ∀ h hdr t n, lookupA cache h = some hdr →
      TerminalN cache hdr.parent_hash t n → TerminalN cache h t (n + 1)

/-- The overlay chain of spec section 4.5.2 step 3: walking
`blocks_by_hash` from a hash toward the root.  `TreeChainN tree h l t n`
holds when the walk from `h` visits `n` tree blocks, collects them
oldest-first into `l`, and stops at the first ancestor hash `t` that is
not present in the tree. -/
inductive TreeChainN (tree : List (Nat × ExecutedBlock)) :
    Nat → List ExecutedBlock → Nat → Nat → Prop where
  | stop : ∀ h, lookupA tree h = none → TreeChainN tree h [] h 0
  | step : ∀ h e l t n, lookupA tree h = some e →
      TreeChainN tree e.block.parent_hash l t n →
      TreeChainN tree h (l ++ [e]) t (n + 1)

/-- Tree states reachable from the empty state by any sequence of
`insert_executed` and `remove_before` operations. -/
inductive Reach : TreeState → Prop where
  | empty : Reach TreeState.empty
  | insert : ∀ ts e, Reach ts → Reach (ts.insert_executed e)
  | remove : ∀ ts n, Reach ts → Reach (ts.remove_before n)

/-- Tree states reachable when every insertion respects the source's
asserted precondition (`debug_assert!(existing.is_none())`, spec
section 4.2: precondition `e.hash` not present). -/
inductive ReachD : TreeState → Prop where
  | empty : ReachD TreeState.empty
  | insert : ∀ ts e, ReachD ts → lookupA ts.blocks_by_hash e.block.hash = none →
      ReachD (ts.insert_executed e)
  | remove : ∀ ts n, ReachD ts → ReachD (ts.remove_before n)

/-- The number index is strictly sorted by key (the `BTreeMap` shape). -/
def btSorted (bn : List (Nat × List ExecutedBlock)) : Prop :=
  List.Pairwise (fun p q => p.1 < q.1) bn

/-- The two `TreeState` invariants of claim C6 plus the `BTreeMap`
shape invariant needed to push them through `remove_before`. -/
def TreeInv (ts : TreeState) : Prop :=
  (∀ k e, lookupA ts.blocks_by_hash k = some e → e.block.hash = k) ∧
  (∀ k e, lookupA ts.blocks_by_hash k = some e →
    ∃ vec, lookupA ts.blocks_by_number e.block.number = some vec ∧
      ∃ b ∈ vec, b.block.hash = k) ∧
  btSorted ts.blocks_by_number

/-- The stronger invariant available under `ReachD`: both indices hold
exactly the same blocks, elementwise. -/
def TreeInvD (ts : TreeState) : Prop :=
  (∀ p ∈ ts.blocks_by_hash, p.2.block.hash = p.1) ∧
  (∀ p ∈ ts.blocks_by_hash,
    ∃ vec, lookupA ts.blocks_by_number p.2.block.number = some vec ∧ p.2 ∈ vec) ∧
  (∀ q ∈ ts.blocks_by_number, ∀ b ∈ q.2, b.block.number = q.1 ∧
      lookupA ts.blocks_by_hash b.block.hash = some b) ∧
  btSorted ts.blocks_by_number

/-! ### Concrete states and handlers used by witnesses and counterexamples -/

/-- An executed block with the given hash, parent hash and number, and
trivial execution data. -/
def eb (h p n : Nat) : ExecutedBlock := ⟨⟨h, p, n, 0⟩, [], ⟨0, [], 0, []⟩, 0, 0⟩

/-- A sample well-formed sealed block: hash 5, parent 4, number 1. -/
def blkA : SealedBlock := ⟨5, 4, 1, 0⟩

/-- A baseline handler: empty store, tree, buffer and invalid cache;
validator yields `blkA`, sender recovery and all consensus checks
succeed, the executor succeeds with trivial output; pipeline inactive. -/
def baseH : EngineApiTreeHandlerImpl where
  provider_blocks := []
  ensure_well_formed_payload := fun _ _ => .ok blkA
  recover_senders := fun _ => some []
  validate_header_with_total_difficulty := fun _ => none
  validate_header := fun _ => none
  validate_block_pre_execution := fun _ => none
  validate_block_post_execution := fun _ _ => none
  execute := fun _ _ => .ok ⟨0, [], []⟩
  state := ⟨TreeState.empty, none, [], []⟩
  is_pipeline_active := false
  exec_calls := 0

/-- A handler whose payload validator fails with a generic
well-formedness error (neither a block-hash nor a versioned-hash
mismatch). -/
def hWfFail : EngineApiTreeHandlerImpl :=
  { baseH with ensure_well_formed_payload := fun _ _ => .error ⟨false, false⟩ }

/-- A handler with invalid cache 10 → 9 → 8 and block 8 in the store. -/
def hWalk : EngineApiTreeHandlerImpl :=
  { baseH with provider_blocks := [(8, ⟨8, 7, 0, 0⟩)],
               state := ⟨TreeState.empty, none, [], [(10, ⟨9⟩), (9, ⟨8⟩)]⟩ }

/-- A handler whose invalid cache marks hash 4 (parent of `blkA`) as
invalid with parent 3, block 3 being in the store. -/
def hAncestor : EngineApiTreeHandlerImpl :=
  { baseH with provider_blocks := [(3, ⟨3, 2, 0, 0⟩)],
               state := ⟨TreeState.empty, none, [], [(4, ⟨3⟩)]⟩ }

/-- Pipeline active and the header consensus check rejects every block. -/
def hPipeReject : EngineApiTreeHandlerImpl :=
  { baseH with is_pipeline_active := true, validate_header := fun _ => some 7 }

/-- Pipeline active, everything else succeeding. -/
def hPipeOk : EngineApiTreeHandlerImpl :=
  { baseH with is_pipeline_active := true }

/-- Sender recovery fails; parent 4 is in the store, pipeline inactive. -/
def hSenderFail : EngineApiTreeHandlerImpl :=
  { baseH with recover_senders := fun _ => none,
               provider_blocks := [(4, ⟨4, 3, 0, 0⟩)] }

/-- The store holds block 5 with difficulty 0 (a post-merge parent). -/
def hPowZero : EngineApiTreeHandlerImpl :=
  { baseH with provider_blocks := [(5, ⟨5, 4, 1, 0⟩)] }

/-- The store holds block 5 with difficulty 3 (a PoW parent). -/
def hPowNonzero : EngineApiTreeHandlerImpl :=
  { baseH with provider_blocks := [(5, ⟨5, 4, 1, 3⟩)] }

/-- Tree 5 → 4 → 3, with 3 only in the store: two in-memory blocks over
a persisted ancestor. -/
def hOverlay : EngineApiTreeHandlerImpl :=
  { baseH with provider_blocks := [(3, ⟨3, 2, 0, 0⟩)],
               state := ⟨⟨[(5, eb 5 4 2), (4, eb 4 3 1)],
                          [(1, [eb 4 3 1]), (2, [eb 5 4 2])]⟩, none, [], []⟩ }

/-- Two inserts of the same hash 7 under different numbers 1 and 5:
legal for the type, ruled out only by the source's `debug_assert!`. -/
def tsDup : TreeState :=
  (TreeState.empty.insert_executed (eb 7 0 1)).insert_executed (eb 7 0 5)

/-- A small precondition-respecting tree state: blocks 11 and 12 at
numbers 1 and 2. -/
def tsTwo : TreeState :=
  (TreeState.empty.insert_executed (eb 11 10 1)).insert_executed (eb 12 11 2)

/-! ### Association-list lemmas -/

theorem lookupA_removeA {α : Type} (l : List (Nat × α)) (k x : Nat) :
    lookupA (removeA l k) x = if x = k then none else lookupA l x := by
  induction l with
  | nil => simp [removeA, lookupA]
  | cons p rest ih =>
    obtain ⟨a, b⟩ := p
    by_cases hak : a = k <;> by_cases hxa : x = a <;>
      simp_all [removeA, List.filter_cons, lookupA]

theorem lookupA_insertA {α : Type} (l : List (Nat × α)) (k x : Nat) (v : α) :
    lookupA (insertA l k v) x = if x = k then some v else lookupA l x := by
  show lookupA ((k, v) :: removeA l k) x = _
  by_cases hxk : x = k
  · simp [lookupA, hxk]
  · simp [lookupA, hxk, lookupA_removeA]

theorem mem_of_lookupA_eq_some {α : Type} {l : List (Nat × α)} {k : Nat} {v : α}
    (h : lookupA l k = some v) : (k, v) ∈ l := by
  induction l with
  | nil => simp [lookupA] at h
  | cons p rest ih =>
    obtain ⟨a, b⟩ := p
    by_cases hka : k = a
    · subst hka
      simp [lookupA] at h
      simp [h]
    · simp [lookupA, hka] at h
      exact List.mem_cons_of_mem _ (ih h)

theorem lookupA_eq_none_of_forall {α : Type} {l : List (Nat × α)} {k : Nat}
    (h : ∀ p ∈ l, p.1 ≠ k) : lookupA l k = none := by
  induction l with
  | nil => rfl
  | cons p rest ih =>
    obtain ⟨a, b⟩ := p
    have hak : a ≠ k := h (a, b) (by simp)
    simp only [lookupA]
    rw [if_neg (fun hk => hak hk.symm)]
    exact ih fun q hq => h q (List.mem_cons_of_mem _ hq)

theorem forall_ne_of_lookupA_none {α : Type} {l : List (Nat × α)} {k : Nat}
    (h : lookupA l k = none) : ∀ p ∈ l, p.1 ≠ k := by
  induction l with
  | nil => simp
  | cons p rest ih =>
    obtain ⟨a, b⟩ := p
    by_cases hka : k = a
    · simp [lookupA, hka] at h
    · simp only [lookupA, if_neg hka] at h
      intro q hq
      rcases List.mem_cons.1 hq with hq | hq
      · subst hq; exact fun hk => hka hk.symm
      · exact ih h q hq

theorem removeA_eq_self_of_lookupA_none {α : Type} {l : List (Nat × α)} {k : Nat}
    (h : lookupA l k = none) : removeA l k = l := by
  induction l with
  | nil => rfl
  | cons p rest ih =>
    obtain ⟨a, b⟩ := p
    by_cases hka : k = a
    · simp [lookupA, hka] at h
    · simp only [lookupA, if_neg hka] at h
      have hak : (!(a == k)) = true := by
        simp
        exact fun hk => hka hk.symm
      simp [removeA, List.filter_cons, hak, ih h]
      intro a' b' hmem
      exact forall_ne_of_lookupA_none h (a', b') hmem

theorem lookupA_removeEntries (l : List ExecutedBlock) :
    ∀ (h : List (Nat × ExecutedBlock)) (x : Nat),
    lookupA (removeEntries h l) x =
      if x ∈ l.map (fun b => b.block.hash) then none else lookupA h x := by
  induction l with
  | nil => intro h x; simp [removeEntries]
  | cons b t ih =>
    intro h x
    show lookupA (removeEntries (removeA h b.block.hash) t) x = _
    rw [ih]
    by_cases hxt : x ∈ t.map (fun b => b.block.hash)
    · simp [hxt]
    · by_cases hxb : x = b.block.hash
      · simp [hxb, lookupA_removeA]
      · simp [hxt, hxb, lookupA_removeA]

/-! ### Number-index (`BTreeMap`) lemmas -/

theorem lookupA_btInsertPush_ne (bn : List (Nat × List ExecutedBlock)) (n x : Nat)
    (e : ExecutedBlock) (hx : x ≠ n) :
    lookupA (btInsertPush bn n e) x = lookupA bn x := by
  induction bn with
  | nil => simp [btInsertPush, lookupA, hx]
  | cons p rest ih =>
    obtain ⟨m, l⟩ := p
    by_cases h1 : n < m
    · simp [btInsertPush, h1, lookupA, hx]
    · by_cases h2 : n = m
      · subst h2
        simp [btInsertPush, h1, lookupA, hx]
      · simp only [btInsertPush, if_neg h1, if_neg h2, lookupA]
        by_cases hxm : x = m <;> simp [hxm, ih]

theorem lookupA_btInsertPush_self (bn : List (Nat × List ExecutedBlock)) (n : Nat)
    (e : ExecutedBlock) (hs : btSorted bn) :
    lookupA (btInsertPush bn n e) n = some ((lookupA bn n).getD [] ++ [e]) := by
  induction bn with
  | nil => simp [btInsertPush, lookupA]
  | cons p rest ih =>
    obtain ⟨m, l⟩ := p
    rw [btSorted, List.pairwise_cons] at hs
    by_cases h1 : n < m
    · have hrest : lookupA rest n = none :=
        lookupA_eq_none_of_forall (fun q hq => by have := hs.1 q hq; omega)
      have hnm : ¬ n = m := by omega
      simp [btInsertPush, h1, lookupA, hnm, hrest]
    · by_cases h2 : n = m
      · subst h2
        simp [btInsertPush, h1, lookupA]
      · simp [btInsertPush, h1, h2, lookupA, ih hs.2]

theorem mem_btInsertPush (bn : List (Nat × List ExecutedBlock)) (n : Nat)
    (e : ExecutedBlock) : ∀ q ∈ btInsertPush bn n e, q.1 = n ∨ q ∈ bn := by
  induction bn with
  | nil => simp [btInsertPush]
  | cons p rest ih =>
    obtain ⟨m, l⟩ := p
    intro q hq
    by_cases h1 : n < m
    · simp only [btInsertPush, if_pos h1] at hq
      rcases List.mem_cons.1 hq with h | h
      · subst h; left; rfl
      · right; exact h
    · by_cases h2 : n = m
      · subst h2
        simp only [btInsertPush, if_neg h1, if_pos rfl] at hq
        rcases List.mem_cons.1 hq with h | h
        · subst h; left; rfl
        · right; exact List.mem_cons_of_mem _ h
      · simp only [btInsertPush, if_neg h1, if_neg h2] at hq
        rcases List.mem_cons.1 hq with h | h
        · subst h; right; exact List.mem_cons_self _ _
        · rcases ih q h with h | h
          · left; exact h
          · right; exact List.mem_cons_of_mem _ h

theorem btSorted_btInsertPush (bn : List (Nat × List ExecutedBlock)) (n : Nat)
    (e : ExecutedBlock) (hs : btSorted bn) : btSorted (btInsertPush bn n e) := by
  induction bn with
  | nil => simp [btInsertPush, btSorted]
  | cons p rest ih =>
    obtain ⟨m, l⟩ := p
    rw [btSorted, List.pairwise_cons] at hs
    by_cases h1 : n < m
    · rw [btSorted]
      simp only [btInsertPush, if_pos h1]
      rw [List.pairwise_cons]
      constructor
      · intro q hq
        rcases List.mem_cons.1 hq with h | h
        · subst h; exact h1
        · have := hs.1 q h; omega
      · rw [List.pairwise_cons]
        exact ⟨hs.1, hs.2⟩
    · by_cases h2 : n = m
      · subst h2
        rw [btSorted]
        simp only [btInsertPush, if_neg h1, eq_self_iff_true, if_true]
        rw [List.pairwise_cons]
        exact ⟨hs.1, hs.2⟩
      · rw [btSorted]
        simp only [btInsertPush, if_neg h1, if_neg h2]
        rw [List.pairwise_cons]
        constructor
        · intro q hq
          rcases mem_btInsertPush rest n e q hq with h | h
          · rw [h]; omega
          · exact hs.1 q h
        · exact ih hs.2

/-! ### `remove_before` lemmas -/

theorem removeBeforeAux_hash_some (n : Nat) :
    ∀ (bn : List (Nat × List ExecutedBlock)) (h : List (Nat × ExecutedBlock)) (k : Nat)
      (e : ExecutedBlock),
      lookupA (removeBeforeAux n bn h).blocks_by_hash k = some e → lookupA h k = some e := by
  intro bn
  induction bn with
  | nil => intro h k e hk; exact hk
  | cons p rest ih =>
    obtain ⟨m, l⟩ := p
    intro h k e hk
    by_cases hm : m < n
    · simp only [removeBeforeAux, if_pos hm] at hk
      have := ih _ _ _ hk
      rw [lookupA_removeEntries] at this
      by_cases hmem : k ∈ l.map (fun b => b.block.hash)
      · rw [if_pos hmem] at this; exact absurd this (by simp)
      · rwa [if_neg hmem] at this
    · simpa only [removeBeforeAux, if_neg hm] using hk

theorem btSorted_removeBeforeAux (n : Nat) :
    ∀ (bn : List (Nat × List ExecutedBlock)) (h : List (Nat × ExecutedBlock)),
      btSorted bn → btSorted (removeBeforeAux n bn h).blocks_by_number := by
  intro bn
  induction bn with
  | nil => intro h _; simp [removeBeforeAux, btSorted]
  | cons p rest ih =>
    obtain ⟨m, l⟩ := p
    intro h hs
    rw [btSorted, List.pairwise_cons] at hs
    by_cases hm : m < n
    · simp only [removeBeforeAux, if_pos hm]
      exact ih _ hs.2
    · simp only [removeBeforeAux, if_neg hm]
      rw [btSorted, List.pairwise_cons]
      exact hs

theorem removeBeforeAux_invB (n : Nat) :
    ∀ (bn : List (Nat × List ExecutedBlock)) (h : List (Nat × ExecutedBlock)),
      btSorted bn →
      (∀ k e, lookupA h k = some e →
        ∃ vec, lookupA bn e.block.number = some vec ∧ ∃ b ∈ vec, b.block.hash = k) →
      ∀ k e, lookupA (removeBeforeAux n bn h).blocks_by_hash k = some e →
        ∃ vec, lookupA (removeBeforeAux n bn h).blocks_by_number e.block.number = some vec ∧
          ∃ b ∈ vec, b.block.hash = k := by
  intro bn
  induction bn with
  | nil =>
    intro h _ hb k e hk
    exact absurd ((hb k e hk).choose_spec.1) (by simp [lookupA])
  | cons p rest ih =>
    obtain ⟨m, l⟩ := p
    intro h hs hb
    rw [btSorted, List.pairwise_cons] at hs
    by_cases hm : m < n
    · simp only [removeBeforeAux, if_pos hm]
      refine ih _ hs.2 ?_
      intro k e hk
      rw [lookupA_removeEntries] at hk
      by_cases hmem : k ∈ l.map (fun b => b.block.hash)
      · rw [if_pos hmem] at hk; exact absurd hk (by simp)
      · rw [if_neg hmem] at hk
        obtain ⟨vec, hvec, b, hbv, hbh⟩ := hb k e hk
        by_cases hnum : e.block.number = m
        · rw [hnum] at hvec
          have hlm : lookupA ((m, l) :: rest) m = some l := by simp [lookupA]
          rw [hlm] at hvec
          have hveq : vec = l := (Option.some_inj.1 hvec).symm
          have : k ∈ l.map (fun b => b.block.hash) := by
            rw [← hbh]
            exact List.mem_map_of_mem _ (hveq ▸ hbv)
          exact absurd this hmem
        · refine ⟨vec, ?_, b, hbv, hbh⟩
          simpa only [lookupA, if_neg hnum] using hvec
    · simp only [removeBeforeAux, if_neg hm]
      exact hb

/-! ### Tree-state invariants (claim C6) -/

theorem treeInv_empty : TreeInv TreeState.empty := by
  refine ⟨?_, ?_, ?_⟩ <;> simp [TreeState.empty, lookupA, btSorted]

theorem treeInv_insert (ts : TreeState) (e : ExecutedBlock) (h : TreeInv ts) :
    TreeInv (ts.insert_executed e) := by
  obtain ⟨ha, hb, hs⟩ := h
  refine ⟨?_, ?_, btSorted_btInsertPush _ _ _ hs⟩
  · intro k x hk
    simp only [TreeState.insert_executed] at hk
    rw [lookupA_insertA] at hk
    by_cases hke : k = e.block.hash
    · rw [if_pos hke] at hk
      have hx : e = x := Option.some_inj.1 hk
      subst hx
      exact hke.symm
    · rw [if_neg hke] at hk
      exact ha k x hk
  · intro k x hk
    simp only [TreeState.insert_executed] at hk ⊢
    rw [lookupA_insertA] at hk
    by_cases hke : k = e.block.hash
    · rw [if_pos hke] at hk
      have hx : e = x := Option.some_inj.1 hk
      subst hx
      refine ⟨(lookupA ts.blocks_by_number e.block.number).getD [] ++ [e],
        lookupA_btInsertPush_self _ _ _ hs, e, by simp, hke.symm⟩
    · rw [if_neg hke] at hk
      obtain ⟨vec, hvec, b, hbv, hbh⟩ := hb k x hk
      by_cases hnum : x.block.number = e.block.number
      · rw [hnum] at hvec ⊢
        rw [lookupA_btInsertPush_self _ _ _ hs, hvec]
        exact ⟨vec ++ [e], rfl, b, List.mem_append_left _ hbv, hbh⟩
      · rw [lookupA_btInsertPush_ne _ _ _ _ hnum]
        exact ⟨vec, hvec, b, hbv, hbh⟩

theorem treeInv_remove (ts : TreeState) (n : Nat) (h : TreeInv ts) :
    TreeInv (ts.remove_before n) := by
  obtain ⟨ha, hb, hs⟩ := h
  refine ⟨?_, ?_, btSorted_removeBeforeAux _ _ _ hs⟩
  · intro k x hk
    exact ha k x (removeBeforeAux_hash_some _ _ _ _ _ hk)
  · exact removeBeforeAux_invB n ts.blocks_by_number ts.blocks_by_hash hs hb

theorem treeInv_of_reach (ts : TreeState) (h : Reach ts) : TreeInv ts := by
  induction h with
  | empty => exact treeInv_empty
  | insert ts e _ ih => exact treeInv_insert ts e ih
  | remove ts n _ ih => exact treeInv_remove ts n ih

/-- Claim C6: for every `TreeState` reachable by any sequence of
`insert_executed` and `remove_before` operations from the empty state,
every hash-index entry stores a block whose hash equals its key, and the
number index at that block's number contains a block with the same hash. -/
theorem tree_state_reachable_invariants (ts : TreeState) (h : Reach ts) :
    (∀ k e, lookupA ts.blocks_by_hash k = some e → e.block.hash = k) ∧
    (∀ k e, lookupA ts.blocks_by_hash k = some e →
      ∃ vec, lookupA ts.blocks_by_number e.block.number = some vec ∧
        ∃ b ∈ vec, b.block.hash = k) := by
  have h' := treeInv_of_reach ts h
  exact ⟨h'.1, h'.2.1⟩

/-- Witness for C6 at the concrete two-block reachable state `tsTwo`. -/
theorem tree_state_reachable_invariants_witness :
    (∀ k e, lookupA tsTwo.blocks_by_hash k = some e → e.block.hash = k) ∧
    (∀ k e, lookupA tsTwo.blocks_by_hash k = some e →
      ∃ vec, lookupA tsTwo.blocks_by_number e.block.number = some vec ∧
        ∃ b ∈ vec, b.block.hash = k) :=
  tree_state_reachable_invariants tsTwo
    (Reach.insert _ _ (Reach.insert _ _ Reach.empty))

/-! ### Elementwise tree-state invariants under the insert precondition -/

theorem mem_removeEntries (l : List ExecutedBlock) :
    ∀ (h : List (Nat × ExecutedBlock)) (p : Nat × ExecutedBlock),
      p ∈ removeEntries h l → p ∈ h ∧ p.1 ∉ l.map (fun b => b.block.hash) := by
  induction l with
  | nil => intro h p hp; exact ⟨hp, by simp⟩
  | cons b t ih =>
    intro h p hp
    have hp' := ih (removeA h b.block.hash) p hp
    have hmem : p ∈ h ∧ p.1 ≠ b.block.hash := by
      have := hp'.1
      rw [removeA, List.mem_filter] at this
      refine ⟨this.1, ?_⟩
      have hb := this.2
      simp at hb
      exact hb
    refine ⟨hmem.1, ?_⟩
    simp only [List.map_cons, List.mem_cons]
    push_neg
    exact ⟨hmem.2, hp'.2⟩

theorem lookupA_removeEntries_of_not_mem {h : List (Nat × ExecutedBlock)}
    {l : List ExecutedBlock} {k : Nat}
    (hk : k ∉ l.map (fun b => b.block.hash)) :
    lookupA (removeEntries h l) k = lookupA h k := by
  rw [lookupA_removeEntries, if_neg hk]

theorem mem_btInsertPush_sorted (bn : List (Nat × List ExecutedBlock)) (n : Nat)
    (e : ExecutedBlock) (hs : btSorted bn) :
    ∀ q ∈ btInsertPush bn n e,
      (q ∈ bn ∧ q.1 ≠ n) ∨ (q.1 = n ∧ q.2 = (lookupA bn n).getD [] ++ [e]) := by
  induction bn with
  | nil =>
    intro q hq
    simp only [btInsertPush, List.mem_singleton] at hq
    subst hq
    right
    exact ⟨rfl, by simp [lookupA]⟩
  | cons p rest ih =>
    obtain ⟨m, l⟩ := p
    rw [btSorted, List.pairwise_cons] at hs
    intro q hq
    by_cases h1 : n < m
    · have hnone : lookupA ((m, l) :: rest) n = none := by
        refine lookupA_eq_none_of_forall ?_
        intro p hp
        rcases List.mem_cons.1 hp with h | h
        · subst h; omega
        · have := hs.1 p h; omega
      simp only [btInsertPush, if_pos h1] at hq
      rcases List.mem_cons.1 hq with h | h
      · subst h
        right
        exact ⟨rfl, by rw [hnone]; simp⟩
      · left
        refine ⟨h, ?_⟩
        rcases List.mem_cons.1 h with h' | h'
        · subst h'; omega
        · have := hs.1 q h'; omega
    · by_cases h2 : n = m
      · subst h2
        simp only [btInsertPush, if_neg h1, eq_self_iff_true, if_true] at hq
        rcases List.mem_cons.1 hq with h | h
        · subst h
          right
          exact ⟨rfl, by simp [lookupA]⟩
        · left
          refine ⟨List.mem_cons_of_mem _ h, ?_⟩
          have := hs.1 q h; omega
      · simp only [btInsertPush, if_neg h1, if_neg h2] at hq
        rcases List.mem_cons.1 hq with h | h
        · subst h
          left
          exact ⟨List.mem_cons_self _ _, fun hmn => h2 hmn.symm⟩
        · rcases ih hs.2 q h with h' | h'
          · left
            exact ⟨List.mem_cons_of_mem _ h'.1, h'.2⟩
          · right
            refine ⟨h'.1, ?_⟩
            rw [h'.2]
            have : lookupA ((m, l) :: rest) n = lookupA rest n := by
              simp only [lookupA, if_neg h2]
            rw [this]

theorem treeInvD_empty : TreeInvD TreeState.empty := by
  refine ⟨?_, ?_, ?_, ?_⟩ <;> simp [TreeState.empty, btSorted]

theorem treeInvD_insert (ts : TreeState) (e : ExecutedBlock)
    (hpre : lookupA ts.blocks_by_hash e.block.hash = none) (h : TreeInvD ts) :
    TreeInvD (ts.insert_executed e) := by
  obtain ⟨c1, c2, c3, hs⟩ := h
  have hins : insertA ts.blocks_by_hash e.block.hash e =
      (e.block.hash, e) :: ts.blocks_by_hash := by
    rw [insertA]
    rw [show ts.blocks_by_hash.filter (fun p => !(p.1 == e.block.hash)) =
      removeA ts.blocks_by_hash e.block.hash from rfl]
    rw [removeA_eq_self_of_lookupA_none hpre]
  refine ⟨?_, ?_, ?_, btSorted_btInsertPush _ _ _ hs⟩
  · intro p hp
    simp only [TreeState.insert_executed, hins] at hp
    rcases List.mem_cons.1 hp with h' | h'
    · subst h'; rfl
    · exact c1 p h'
  · intro p hp
    simp only [TreeState.insert_executed, hins] at hp ⊢
    rcases List.mem_cons.1 hp with h' | h'
    · subst h'
      exact ⟨(lookupA ts.blocks_by_number e.block.number).getD [] ++ [e],
        lookupA_btInsertPush_self _ _ _ hs, by simp⟩
    · obtain ⟨vec, hvec, hmem⟩ := c2 p h'
      by_cases hnum : p.2.block.number = e.block.number
      · rw [hnum] at hvec ⊢
        rw [lookupA_btInsertPush_self _ _ _ hs, hvec]
        exact ⟨vec ++ [e], rfl, List.mem_append_left _ hmem⟩
      · rw [lookupA_btInsertPush_ne _ _ _ _ hnum]
        exact ⟨vec, hvec, hmem⟩
  · intro q hq b hb
    simp only [TreeState.insert_executed, hins] at hq ⊢
    rcases mem_btInsertPush_sorted ts.blocks_by_number e.block.number e hs q hq with h' | h'
    · have hq' := c3 q h'.1 b hb
      have hne : b.block.hash ≠ e.block.hash := by
        intro heq
        rw [heq] at hq'
        rw [hpre] at hq'
        exact absurd hq'.2 (by simp)
      refine ⟨hq'.1, ?_⟩
      simp only [lookupA, if_neg hne]
      exact hq'.2
    · rw [h'.2] at hb
      rcases List.mem_append.1 hb with hb' | hb'
      · cases hlk : lookupA ts.blocks_by_number e.block.number with
        | none => rw [hlk] at hb'; simp at hb'
        | some oldvec =>
          rw [hlk] at hb'
          simp only [Option.getD_some] at hb'
          have hmem := mem_of_lookupA_eq_some hlk
          have hq' := c3 _ hmem b hb'
          have hne : b.block.hash ≠ e.block.hash := by
            intro heq
            rw [heq] at hq'
            rw [hpre] at hq'
            exact absurd hq'.2 (by simp)
          refine ⟨by rw [h'.1]; exact hq'.1, ?_⟩
          simp only [lookupA, if_neg hne]
          exact hq'.2
      · have hbe : b = e := by simpa using hb'
        subst hbe
        refine ⟨by rw [h'.1], ?_⟩
        simp [lookupA]

theorem removeBeforeAux_invD (n : Nat) :
    ∀ (bn : List (Nat × List ExecutedBlock)) (h : List (Nat × ExecutedBlock)),
      (∀ p ∈ h, p.2.block.hash = p.1) →
      (∀ p ∈ h, ∃ vec, lookupA bn p.2.block.number = some vec ∧ p.2 ∈ vec) →
      (∀ q ∈ bn, ∀ b ∈ q.2, b.block.number = q.1 ∧ lookupA h b.block.hash = some b) →
      btSorted bn →
      TreeInvD (removeBeforeAux n bn h) := by
  intro bn
  induction bn with
  | nil =>
    intro h c1 c2 _ _
    exact ⟨c1, c2, by simp [removeBeforeAux], by simp [removeBeforeAux, btSorted]⟩
  | cons p rest ih =>
    obtain ⟨m, l⟩ := p
    intro h c1 c2 c3 hs
    rw [btSorted, List.pairwise_cons] at hs
    by_cases hm : m < n
    · simp only [removeBeforeAux, if_pos hm]
      refine ih _ ?_ ?_ ?_ hs.2
      · intro p hp
        exact c1 p (mem_removeEntries l h p hp).1
      · intro p hp
        obtain ⟨hph, hpl⟩ := mem_removeEntries l h p hp
        obtain ⟨vec, hvec, hmem⟩ := c2 p hph
        by_cases hnum : p.2.block.number = m
        · rw [hnum] at hvec
          have hlv : lookupA ((m, l) :: rest) m = some l := by simp [lookupA]
          rw [hlv] at hvec
          have hveq : vec = l := (Option.some_inj.1 hvec).symm
          subst hveq
          exact absurd (by rw [← c1 p hph]; exact List.mem_map_of_mem _ hmem) hpl
        · refine ⟨vec, ?_, hmem⟩
          simpa only [lookupA, if_neg hnum] using hvec
      · intro q hq b hb
        have hq' := c3 q (List.mem_cons_of_mem _ hq) b hb
        have hnotmem : b.block.hash ∉ l.map (fun x => x.block.hash) := by
          intro hmem
          obtain ⟨b', hb', hbeq⟩ := List.mem_map.1 hmem
          have hhead := c3 (m, l) (List.mem_cons_self _ _) b' hb'
          rw [hbeq] at hhead
          rw [hq'.2] at hhead
          have hbb : b = b' := Option.some_inj.1 hhead.2
          subst hbb
          have h1 : b.block.number = m := hhead.1
          have h2 : b.block.number = q.1 := hq'.1
          have hlt : m < q.1 := hs.1 q hq
          omega
        refine ⟨hq'.1, ?_⟩
        rw [lookupA_removeEntries_of_not_mem hnotmem]
        exact hq'.2
    · simp only [removeBeforeAux, if_neg hm]
      refine ⟨c1, c2, c3, ?_⟩
      rw [btSorted, List.pairwise_cons]
      exact hs

theorem treeInvD_of_reachD (ts : TreeState) (h : ReachD ts) : TreeInvD ts := by
  induction h with
  | empty => exact treeInvD_empty
  | insert ts e _ hpre ih => exact treeInvD_insert ts e hpre ih
  | remove ts n _ ih =>
    obtain ⟨c1, c2, c3, hs⟩ := ih
    exact removeBeforeAux_invD n ts.blocks_by_number ts.blocks_by_hash c1 c2 c3 hs

/-! ### Exactness of `remove_before` (claim C7) -/

theorem removeBeforeAux_exact_number (n : Nat) :
    ∀ (bn : List (Nat × List ExecutedBlock)) (h : List (Nat × ExecutedBlock)),
      btSorted bn →
      ∀ m, lookupA (removeBeforeAux n bn h).blocks_by_number m =
        if m < n then none else lookupA bn m := by
  intro bn
  induction bn with
  | nil =>
    intro h _ m
    simp only [removeBeforeAux, lookupA]
    split <;> rfl
  | cons p rest ih =>
    obtain ⟨m0, l⟩ := p
    intro h hs m
    rw [btSorted, List.pairwise_cons] at hs
    by_cases hm0 : m0 < n
    · simp only [removeBeforeAux, if_pos hm0]
      rw [ih _ hs.2 m]
      by_cases hmn : m < n
      · rw [if_pos hmn, if_pos hmn]
      · have hne : ¬ m = m0 := by omega
        rw [if_neg hmn, if_neg hmn]
        simp only [lookupA, if_neg hne]
    · simp only [removeBeforeAux, if_neg hm0]
      by_cases hmn : m < n
      · rw [if_pos hmn]
        refine lookupA_eq_none_of_forall ?_
        intro q hq
        rcases List.mem_cons.1 hq with h' | h'
        · subst h'; omega
        · have := hs.1 q h'; omega
      · rw [if_neg hmn]

theorem removeBeforeAux_exact_hash (n : Nat) :
    ∀ (bn : List (Nat × List ExecutedBlock)) (h : List (Nat × ExecutedBlock)),
      (∀ p ∈ h, p.2.block.hash = p.1) →
      (∀ p ∈ h, ∃ vec, lookupA bn p.2.block.number = some vec ∧ p.2 ∈ vec) →
      (∀ q ∈ bn, ∀ b ∈ q.2, b.block.number = q.1 ∧ lookupA h b.block.hash = some b) →
      btSorted bn →
      ∀ k, lookupA (removeBeforeAux n bn h).blocks_by_hash k =
        match lookupA h k with
        | some e => if e.block.number < n then none else some e
        | none => none := by
  intro bn
  induction bn with
  | nil =>
    intro h _ c2 _ _ k
    cases hlk : lookupA h k with
    | none =>
      show lookupA h k = (none : Option ExecutedBlock)
      exact hlk
    | some e =>
      obtain ⟨vec, hvec, _⟩ := c2 (k, e) (mem_of_lookupA_eq_some hlk)
      exact absurd hvec (by simp [lookupA])
  | cons p rest ih =>
    obtain ⟨m, l⟩ := p
    intro h c1 c2 c3 hs k
    rw [btSorted, List.pairwise_cons] at hs
    by_cases hm : m < n
    · simp only [removeBeforeAux, if_pos hm]
      have c1' : ∀ p ∈ removeEntries h l, p.2.block.hash = p.1 :=
        fun p hp => c1 p (mem_removeEntries l h p hp).1
      have c2' : ∀ p ∈ removeEntries h l,
          ∃ vec, lookupA rest p.2.block.number = some vec ∧ p.2 ∈ vec := by
        intro p hp
        obtain ⟨hph, hpl⟩ := mem_removeEntries l h p hp
        obtain ⟨vec, hvec, hmem⟩ := c2 p hph
        by_cases hnum : p.2.block.number = m
        · rw [hnum] at hvec
          have hlm : lookupA ((m, l) :: rest) m = some l := by simp [lookupA]
          rw [hlm] at hvec
          have hveq : vec = l := (Option.some_inj.1 hvec).symm
          subst hveq
          exact absurd (by rw [← c1 p hph]; exact List.mem_map_of_mem _ hmem) hpl
        · refine ⟨vec, ?_, hmem⟩
          simpa only [lookupA, if_neg hnum] using hvec
      have c3' : ∀ q ∈ rest, ∀ b ∈ q.2,
          b.block.number = q.1 ∧ lookupA (removeEntries h l) b.block.hash = some b := by
        intro q hq b hb
        have hq' := c3 q (List.mem_cons_of_mem _ hq) b hb
        have hnotmem : b.block.hash ∉ l.map (fun x => x.block.hash) := by
          intro hmem
          obtain ⟨b', hb', hbeq⟩ := List.mem_map.1 hmem
          have hhead := c3 (m, l) (List.mem_cons_self _ _) b' hb'
          rw [hbeq] at hhead
          rw [hq'.2] at hhead
          have hbb : b = b' := Option.some_inj.1 hhead.2
          subst hbb
          have h1 : b.block.number = m := hhead.1
          have h2 : b.block.number = q.1 := hq'.1
          have hlt : m < q.1 := hs.1 q hq
          omega
        refine ⟨hq'.1, ?_⟩
        rw [lookupA_removeEntries_of_not_mem hnotmem]
        exact hq'.2
      rw [ih _ c1' c2' c3' hs.2 k]
      cases hlk : lookupA h k with
      | none =>
        have : lookupA (removeEntries h l) k = none := by
          rw [lookupA_removeEntries]
          split <;> simp [hlk]
        rw [this]
      | some e =>
        by_cases hmem : k ∈ l.map (fun b => b.block.hash)
        · have hnone : lookupA (removeEntries h l) k = none := by
            rw [lookupA_removeEntries, if_pos hmem]
          rw [hnone]
          obtain ⟨b', hb', hbeq⟩ := List.mem_map.1 hmem
          have hhead := c3 (m, l) (List.mem_cons_self _ _) b' hb'
          have hsome : lookupA h k = some b' := hbeq ▸ hhead.2
          have hbb : e = b' := by
            rw [hlk] at hsome
            exact Option.some_inj.1 hsome
          have he : e.block.number = m := by rw [hbb]; exact hhead.1
          show (none : Option ExecutedBlock) =
            if e.block.number < n then none else some e
          rw [if_pos (show e.block.number < n by omega)]
        · have hsome : lookupA (removeEntries h l) k = some e := by
            rw [lookupA_removeEntries, if_neg hmem, hlk]
          rw [hsome]
    · simp only [removeBeforeAux, if_neg hm]
      cases hlk : lookupA h k with
      | none => rfl
      | some e =>
        obtain ⟨vec, hvec, _⟩ := c2 (k, e) (mem_of_lookupA_eq_some hlk)
        have hkey := mem_of_lookupA_eq_some hvec
        have hge : n ≤ e.block.number := by
          rcases List.mem_cons.1 hkey with h' | h'
          · have : e.block.number = m := congrArg Prod.fst h'
            omega
          · have := hs.1 _ h'
            simp at this
            omega
        show some e = if e.block.number < n then none else some e
        rw [if_neg (by omega)]

theorem removeBeforeAux_all_below (n : Nat) :
    ∀ (bn : List (Nat × List ExecutedBlock)) (h : List (Nat × ExecutedBlock)),
      (∀ p ∈ h, p.2.block.hash = p.1) →
      (∀ p ∈ h, ∃ vec, lookupA bn p.2.block.number = some vec ∧ p.2 ∈ vec) →
      (∀ q ∈ bn, ∀ b ∈ q.2, b.block.number = q.1 ∧ lookupA h b.block.hash = some b) →
      btSorted bn →
      (∀ q ∈ bn, q.1 < n) →
      removeBeforeAux n bn h = ⟨[], []⟩ := by
  intro bn
  induction bn with
  | nil =>
    intro h _ c2 _ _ _
    have hnil : h = [] := by
      rw [List.eq_nil_iff_forall_not_mem]
      intro p hp
      obtain ⟨vec, hvec, _⟩ := c2 p hp
      exact absurd hvec (by simp [lookupA])
    rw [removeBeforeAux, hnil]
  | cons p rest ih =>
    obtain ⟨m, l⟩ := p
    intro h c1 c2 c3 hs hall
    rw [btSorted, List.pairwise_cons] at hs
    have hm : m < n := hall (m, l) (List.mem_cons_self _ _)
    simp only [removeBeforeAux, if_pos hm]
    have c1' : ∀ p ∈ removeEntries h l, p.2.block.hash = p.1 :=
      fun p hp => c1 p (mem_removeEntries l h p hp).1
    have c2' : ∀ p ∈ removeEntries h l,
        ∃ vec, lookupA rest p.2.block.number = some vec ∧ p.2 ∈ vec := by
      intro p hp
      obtain ⟨hph, hpl⟩ := mem_removeEntries l h p hp
      obtain ⟨vec, hvec, hmem⟩ := c2 p hph
      by_cases hnum : p.2.block.number = m
      · rw [hnum] at hvec
        have hlm : lookupA ((m, l) :: rest) m = some l := by simp [lookupA]
        rw [hlm] at hvec
        have hveq : vec = l := (Option.some_inj.1 hvec).symm
        subst hveq
        exact absurd (by rw [← c1 p hph]; exact List.mem_map_of_mem _ hmem) hpl
      · refine ⟨vec, ?_, hmem⟩
        simpa only [lookupA, if_neg hnum] using hvec
    have c3' : ∀ q ∈ rest, ∀ b ∈ q.2,
        b.block.number = q.1 ∧ lookupA (removeEntries h l) b.block.hash = some b := by
      intro q hq b hb
      have hq' := c3 q (List.mem_cons_of_mem _ hq) b hb
      have hnotmem : b.block.hash ∉ l.map (fun x => x.block.hash) := by
        intro hmem
        obtain ⟨b', hb', hbeq⟩ := List.mem_map.1 hmem
        have hhead := c3 (m, l) (List.mem_cons_self _ _) b' hb'
        rw [hbeq] at hhead
        rw [hq'.2] at hhead
        have hbb : b = b' := Option.some_inj.1 hhead.2
        subst hbb
        have h1 : b.block.number = m := hhead.1
        have h2 : b.block.number = q.1 := hq'.1
        have hlt : m < q.1 := hs.1 q hq
        omega
      refine ⟨hq'.1, ?_⟩
      rw [lookupA_removeEntries_of_not_mem hnotmem]
      exact hq'.2
    exact ih _ c1' c2' c3' hs.2 (fun q hq => hall q (List.mem_cons_of_mem _ hq))

/-- Counterexample to claim C7 as stated: after inserting the same hash 7
under numbers 1 and 5 (legal for the type, flagged only by a
`debug_assert!` in the source), `remove_before 3` also deletes the
hash-index entry whose block number is 5, which is not below 3. -/
theorem remove_before_not_exact_cex :
    lookupA tsDup.blocks_by_hash 7 = some (eb 7 0 5) ∧
    (eb 7 0 5).block.number = 5 ∧ ¬ (5 : Nat) < 3 ∧
    lookupA (tsDup.remove_before 3).blocks_by_hash 7 = none :=
  ⟨rfl, rfl, by omega, rfl⟩

/-- Claim C7 (amended): for every `TreeState` reachable by
precondition-respecting operations (no duplicate-hash insertion, the
source's asserted precondition) and every block number `n`,
`remove_before n` removes exactly those entries whose number is below
`n` from both indices and nothing else; in particular when every stored
number is below `n`, both indices end up empty. -/
theorem remove_before_exact (ts : TreeState) (hreach : ReachD ts) (n : Nat) :
    (∀ k, lookupA (ts.remove_before n).blocks_by_hash k =
      match lookupA ts.blocks_by_hash k with
      | some e => if e.block.number < n then none else some e
      | none => none) ∧
    (∀ m, lookupA (ts.remove_before n).blocks_by_number m =
      if m < n then none else lookupA ts.blocks_by_number m) ∧
    ((∀ q ∈ ts.blocks_by_number, q.1 < n) →
      (ts.remove_before n).blocks_by_hash = [] ∧
      (ts.remove_before n).blocks_by_number = []) := by
  obtain ⟨c1, c2, c3, hs⟩ := treeInvD_of_reachD ts hreach
  refine ⟨removeBeforeAux_exact_hash n ts.blocks_by_number ts.blocks_by_hash c1 c2 c3 hs,
    removeBeforeAux_exact_number n ts.blocks_by_number ts.blocks_by_hash hs, ?_⟩
  intro hall
  have := removeBeforeAux_all_below n ts.blocks_by_number ts.blocks_by_hash c1 c2 c3 hs hall
  rw [TreeState.remove_before, this]
  exact ⟨rfl, rfl⟩

/-- Witness for the amended C7 at the concrete reachable state `tsTwo`
with bound 2: block 11 (number 1) is removed, block 12 (number 2) kept. -/
theorem remove_before_exact_witness :
    (∀ k, lookupA (tsTwo.remove_before 2).blocks_by_hash k =
      match lookupA tsTwo.blocks_by_hash k with
      | some e => if e.block.number < 2 then none else some e
      | none => none) ∧
    (∀ m, lookupA (tsTwo.remove_before 2).blocks_by_number m =
      if m < 2 then none else lookupA tsTwo.blocks_by_number m) ∧
    ((∀ q ∈ tsTwo.blocks_by_number, q.1 < 2) →
      (tsTwo.remove_before 2).blocks_by_hash = [] ∧
      (tsTwo.remove_before 2).blocks_by_number = []) :=
  remove_before_exact tsTwo
    (ReachD.insert _ _ (ReachD.insert _ _ ReachD.empty rfl) rfl) 2

/-! ### The latest-valid-hash walk (claim C2) -/

theorem lvh_loop_terminal (H : EngineApiTreeHandlerImpl) :
    ∀ (n parent t : Nat) (hdr : InvalidHeader) (fuel : Nat),
      lookupA H.state.invalid_headers parent = some hdr →
      TerminalN H.state.invalid_headers hdr.parent_hash t n → n < fuel →
      lvh_loop H fuel parent =
        if (block_by_hash H t).isSome then some t else none := by
  intro n
  induction n with
  | zero =>
    intro parent t hdr fuel hpar hterm hf
    cases hterm with
    | stop _ hnone =>
      obtain ⟨f, rfl⟩ : ∃ f, fuel = f + 1 := ⟨fuel - 1, by omega⟩
      simp only [lvh_loop, hpar, hnone]
  | succ n ih =>
    intro parent t hdr fuel hpar hterm hf
    cases hterm with
    | step _ hdr2 _ _ hpar2 hterm2 =>
      obtain ⟨f, rfl⟩ : ∃ f, fuel = f + 1 := ⟨fuel - 1, by omega⟩
      simp only [lvh_loop, hpar, hpar2]
      exact ih hdr.parent_hash t hdr2 f hpar2 hterm2 (by omega)

/-- Claim C2: `latest_valid_hash_for_invalid_payload` returns the parent
hash itself when it is in the tree or store; otherwise it walks the
invalid-cache parent chain and returns its terminal (the first hash on
the chain absent from the cache) exactly when that hash is in the tree
or store, and `none` when the walk ends at a hash absent from both the
cache and the store. -/
theorem latest_valid_hash_walk_spec (H : EngineApiTreeHandlerImpl)
    (fuel parent t n : Nat)
    (hw : TerminalN H.state.invalid_headers parent t n) (hf : n ≤ fuel) :
    latest_valid_hash_for_invalid_payload H fuel parent =
      if (block_by_hash H parent).isSome then some parent
      else if (block_by_hash H t).isSome then some t else none := by
  rw [latest_valid_hash_for_invalid_payload]
  by_cases hp : (block_by_hash H parent).isSome
  · rw [if_pos hp, if_pos hp]
  · rw [if_neg hp, if_neg hp]
    cases hw with
    | stop _ hnone =>
      rw [if_neg hp]
      cases fuel with
      | zero => rfl
      | succ f => simp only [lvh_loop, hnone]
    | step _ hdr _ n' hpar hterm =>
      exact lvh_loop_terminal H n' parent t hdr fuel hpar hterm (by omega)

/-- Witness for C2: walking the cache 10 → 9 → 8 of `hWalk` from 10,
with 8 in the store and 10 unknown to tree and store, yields 8. -/
theorem latest_valid_hash_walk_spec_witness :
    latest_valid_hash_for_invalid_payload hWalk 5 10 =
      if (block_by_hash hWalk 10).isSome then some 10
      else if (block_by_hash hWalk 8).isSome then some 8 else none :=
  latest_valid_hash_walk_spec hWalk 5 10 8 2
    (TerminalN.step _ _ _ _ rfl (TerminalN.step _ _ _ _ rfl (TerminalN.stop _ rfl)))
    (by omega)

/-! ### The overlay walk of `state_provider` (claim C9) -/

theorem sp_walk_chain (tree : List (Nat × ExecutedBlock)) :
    ∀ (n fuel h : Nat) (l : List ExecutedBlock) (t : Nat),
      TreeChainN tree h l t n → n ≤ fuel → sp_walk tree fuel h = (l, t) := by
  intro n
  induction n with
  | zero =>
    intro fuel h l t hc hf
    cases hc with
    | stop _ hnone =>
      cases fuel with
      | zero => rfl
      | succ f => simp only [sp_walk, hnone]
  | succ n ih =>
    intro fuel h l t hc hf
    cases hc with
    | step _ e l' _ _ hsome hc' =>
      obtain ⟨f, rfl⟩ : ∃ f, fuel = f + 1 := ⟨fuel - 1, by omega⟩
      simp only [sp_walk, hsome]
      rw [ih f e.block.parent_hash l' t hc' (by omega)]

theorem treeChain_oldest (tree : List (Nat × ExecutedBlock)) (h : Nat)
    (l : List ExecutedBlock) (t n : Nat) (hc : TreeChainN tree h l t n) :
    (l = [] → t = h) ∧ ∀ e rest, l = e :: rest → t = e.block.parent_hash := by
  induction hc with
  | stop h0 hnone => exact ⟨fun _ => rfl, fun e rest hl => by simp at hl⟩
  | step h0 e0 l0 t0 n0 hsome hc0 ih =>
    constructor
    · intro hl
      exact absurd hl (by simp)
    · intro e rest hl
      cases l0 with
      | nil =>
        simp only [List.nil_append, List.cons.injEq] at hl
        rw [← hl.1]
        exact ih.1 rfl
      | cons x xs =>
        simp only [List.cons_append, List.cons.injEq] at hl
        rw [← hl.1]
        exact ih.2 x xs rfl

/-- Claim C9: `state_provider` walks `blocks_by_hash` from the given
hash toward the root, producing the overlay list oldest-first, and then
obtains the historical state provider for the chain's terminal hash —
the parent hash of the oldest collected block (the hash itself when
nothing was collected), i.e. the first ancestor hash not in the tree. -/
theorem state_provider_overlay_chain (H : EngineApiTreeHandlerImpl)
    (fuel h : Nat) (l : List ExecutedBlock) (t n : Nat)
    (hc : TreeChainN H.state.tree_state.blocks_by_hash h l t n) (hf : n ≤ fuel) :
    state_provider H fuel h =
      (state_by_block_hash H t).map (MemoryOverlayStateProvider.new l) ∧
    (l = [] → t = h) ∧
    (∀ e rest, l = e :: rest → t = e.block.parent_hash) := by
  refine ⟨?_, (treeChain_oldest _ _ _ _ _ hc).1, (treeChain_oldest _ _ _ _ _ hc).2⟩
  rw [state_provider, sp_walk_chain _ n fuel h l t hc hf]
  cases state_by_block_hash H t <;> rfl

/-- Witness for C9: in `hOverlay` the walk from 5 collects blocks 4 and
5 oldest-first and opens the historical provider at 3 (in the store). -/
theorem state_provider_overlay_chain_witness :
    state_provider hOverlay 5 5 =
      (state_by_block_hash hOverlay 3).map
        (MemoryOverlayStateProvider.new [eb 4 3 1, eb 5 4 2]) ∧
    ([eb 4 3 1, eb 5 4 2] = ([] : List ExecutedBlock) → (3 : Nat) = 5) ∧
    (∀ e rest, [eb 4 3 1, eb 5 4 2] = e :: rest → (3 : Nat) = e.block.parent_hash) :=
  state_provider_overlay_chain hOverlay 5 5 [eb 4 3 1, eb 5 4 2] 3 2
    (TreeChainN.step 5 (eb 5 4 2) [eb 4 3 1] 3 1 rfl
      (TreeChainN.step 4 (eb 4 3 1) [] 3 0 rfl (TreeChainN.stop 3 rfl)))
    (by omega)

/-! ### Well-formedness failures in `on_new_payload` (claim C1) -/

/-- Claim C1: when the payload fails well-formedness validation, the
returned status is INVALID; its latest valid hash is `none` when the
failure is a block-hash mismatch or a versioned-hash mismatch, and
`latest_valid_hash_for_invalid_payload(parent_hash)` for every other
well-formedness failure.  The handler state is unchanged. -/
theorem on_new_payload_wellformed_failure (H : EngineApiTreeHandlerImpl)
    (fuel : Nat) (payload : Payload) (cancun : Option Nat) (e : WellFormedError)
    (hwf : H.ensure_well_formed_payload payload cancun = .error e) :
    on_new_payload H fuel payload cancun =
      .ok (H, TreeOutcome.new (PayloadStatus.new (.invalid (.wellFormed e))
        (if e.is_block_hash_mismatch || e.is_invalid_versioned_hashes then none
         else latest_valid_hash_for_invalid_payload H fuel payload.parent_hash))) := by
  simp only [on_new_payload, hwf]

/-- Witness for C1 at `hWfFail` (a generic well-formedness failure with
both mismatch predicates false, unknown parent 4). -/
theorem on_new_payload_wellformed_failure_witness :
    on_new_payload hWfFail 5 ⟨4, 0⟩ none =
      .ok (hWfFail, TreeOutcome.new (PayloadStatus.new
        (.invalid (.wellFormed ⟨false, false⟩))
        (if (WellFormedError.mk false false).is_block_hash_mismatch ||
            (WellFormedError.mk false false).is_invalid_versioned_hashes then none
         else latest_valid_hash_for_invalid_payload hWfFail 5 4))) :=
  on_new_payload_wellformed_failure hWfFail 5 ⟨4, 0⟩ none ⟨false, false⟩ rfl

/-! ### The invalid-ancestor path of `on_new_payload` (claim C3) -/

/-- Claim C3: for a well-formed payload whose check hash (the parent of
its lowest buffered ancestor, or the block's own parent hash when the
block itself is the lowest buffered entry) is in the invalid cache, the
incoming block's hash is inserted into the invalid cache linked to that
invalid ancestor, and the response is the INVALID status computed by
`prepare_invalid_response` on the cached header's parent hash. -/
theorem on_new_payload_invalid_ancestor (H : EngineApiTreeHandlerImpl)
    (fuel : Nat) (payload : Payload) (cancun : Option Nat) (block : SealedBlock)
    (hdr : InvalidHeader)
    (hwf : H.ensure_well_formed_payload payload cancun = .ok block)
    (hcheck : lookupA H.state.invalid_headers (check_hash_for H fuel block) = some hdr) :
    ∃ H1, on_new_payload H fuel payload cancun =
        .ok (H1, TreeOutcome.new (prepare_invalid_response H fuel hdr.parent_hash)) ∧
      lookupA H1.state.invalid_headers block.hash = some hdr ∧
      (prepare_invalid_response H fuel hdr.parent_hash).status =
        .invalid .linksToRejectedPayload := by
  refine ⟨{ H with state := { H.state with
      invalid_headers :=
        insert_with_invalid_ancestor H.state.invalid_headers block.hash hdr } },
    ?_, ?_, rfl⟩
  · simp only [on_new_payload, hwf, check_invalid_ancestor_with_head, hcheck]
  · rw [insert_with_invalid_ancestor, lookupA_insertA, if_pos rfl]

/-- Witness for C3 at `hAncestor`: block 5's parent 4 is cached invalid
with parent 3; the response carries latest valid hash 3 and hash 5 ends
up in the invalid cache. -/
theorem on_new_payload_invalid_ancestor_witness :
    ∃ H1, on_new_payload hAncestor 5 ⟨4, 0⟩ none =
        .ok (H1, TreeOutcome.new (prepare_invalid_response hAncestor 5 3)) ∧
      lookupA H1.state.invalid_headers 5 = some ⟨3⟩ ∧
      (prepare_invalid_response hAncestor 5 3).status =
        .invalid .linksToRejectedPayload :=
  on_new_payload_invalid_ancestor hAncestor 5 ⟨4, 0⟩ none blkA ⟨3⟩ rfl rfl

/-! ### The pipeline-active branch (claim C4) -/

/-- Counterexample to claim C4 as stated: with the pipeline active and a
well-formed payload that passes the invalid-ancestor check but fails the
header consensus check, `on_new_payload` neither buffers nor returns
SYNCING — the `.unwrap()` on buffering is reached with an error value
and the call panics. -/
theorem pipeline_active_consensus_failure_no_syncing :
    hPipeReject.is_pipeline_active = true ∧
    hPipeReject.ensure_well_formed_payload ⟨4, 0⟩ none = .ok blkA ∧
    lookupA hPipeReject.state.invalid_headers
      (check_hash_for hPipeReject 5 blkA) = none ∧
    on_new_payload hPipeReject 5 ⟨4, 0⟩ none = .error .panic :=
  ⟨rfl, rfl, rfl, rfl⟩

/-- Claim C4 (amended): while the pipeline-active flag is true, every
call whose payload passes well-formedness validation and the
invalid-ancestor check, and whose block passes sender recovery and the
header/body consensus checks, buffers the block and returns SYNCING, and
the executor is never invoked (the instrumentation counter is
unchanged). -/
theorem pipeline_active_buffers_syncing (H : EngineApiTreeHandlerImpl)
    (fuel : Nat) (payload : Payload) (cancun : Option Nat) (block : SealedBlock)
    (senders : List Nat)
    (hpipe : H.is_pipeline_active = true)
    (hwf : H.ensure_well_formed_payload payload cancun = .ok block)
    (hnoinv : lookupA H.state.invalid_headers (check_hash_for H fuel block) = none)
    (hsend : H.recover_senders block = some senders)
    (hcons : validate_block H ⟨block, senders⟩ = none) :
    ∃ H1, on_new_payload H fuel payload cancun =
        .ok (H1, TreeOutcome.new (PayloadStatus.from_status .syncing)) ∧
      lookupA H1.state.buffer block.hash = some ⟨block, senders⟩ ∧
      H1.exec_calls = H.exec_calls := by
  refine ⟨{ H with state := { H.state with
      buffer := insertA H.state.buffer block.hash ⟨block, senders⟩ } }, ?_, ?_, rfl⟩
  · simp only [on_new_payload, hwf, check_invalid_ancestor_with_head, hnoinv, hpipe,
      buffer_block_without_senders, hsend, buffer_block, hcons, if_true,
      attach_canonical_event, PayloadStatus.from_status, PayloadStatus.is_valid]
    rfl
  · rw [lookupA_insertA, if_pos rfl]

/-- Witness for the amended C4 at `hPipeOk`: block 5 is buffered and the
call answers SYNCING without touching the executor. -/
theorem pipeline_active_buffers_syncing_witness :
    ∃ H1, on_new_payload hPipeOk 5 ⟨4, 0⟩ none =
        .ok (H1, TreeOutcome.new (PayloadStatus.from_status .syncing)) ∧
      lookupA H1.state.buffer 5 = some ⟨blkA, []⟩ ∧
      H1.exec_calls = hPipeOk.exec_calls :=
  pipeline_active_buffers_syncing hPipeOk 5 ⟨4, 0⟩ none blkA [] rfl rfl rfl rfl rfl

/-! ### Disconnected payloads (claim C5) -/

/-- Claim C5 evaluated on the code: for a well-formed, consensus-valid
payload whose parent hash 4 is unknown to both the tree and the
persistent store, received with the pipeline inactive, `on_new_payload`
does not buffer and does not return SYNCING: `insert_block_inner` never
produces a `Disconnected` outcome — its `.unwrap()` on `state_provider`
is reached with a provider error and the call panics. -/
theorem disconnected_parent_panics :
    block_by_hash baseH 4 = none ∧
    baseH.is_pipeline_active = false ∧
    state_by_block_hash baseH 4 = .error (.stateForHashNotFound 4) ∧
    on_new_payload baseH 5 ⟨4, 0⟩ none = .error .panic :=
  ⟨rfl, rfl, rfl, rfl⟩

/-! ### The terminal-PoW substitution (claim C8) -/

/-- Counterexample to claim C8 as stated: the store of `hPowZero` has
block 5 with difficulty 0; per the claim the zero hash would be
substituted and the walk started from 0 (giving latest valid hash 0),
but the code leaves the parent hash unchanged and answers 5. -/
theorem prepare_invalid_response_zero_difficulty_cex :
    block_by_hash hPowZero 5 = some ⟨5, 4, 1, 0⟩ ∧
    (SealedBlock.mk 5 4 1 0).difficulty = 0 ∧
    prepare_invalid_response hPowZero 5 5 =
      PayloadStatus.new (.invalid .linksToRejectedPayload) (some 5) ∧
    (latest_valid_hash_for_invalid_payload hPowZero 5 0).getD 0 = 0 ∧
    (5 : Nat) ≠ 0 :=
  ⟨rfl, rfl, rfl, rfl, by omega⟩

/-- Claim C8 (amended): when preparing an INVALID response, if the
direct parent block is found and is a PoW block — difficulty NOT equal
to 0, the pre-merge sentinel being nonzero difficulty — the zero hash is
substituted for the parent hash before the latest-valid-hash walk; a
parent with difficulty 0 leaves the hash unchanged. -/
theorem prepare_invalid_response_pow_substitution (H : EngineApiTreeHandlerImpl)
    (fuel parent_hash : Nat) (parent : SealedBlock)
    (hpar : block_by_hash H parent_hash = some parent) :
    prepare_invalid_response H fuel parent_hash =
      PayloadStatus.new (.invalid .linksToRejectedPayload)
        (some ((latest_valid_hash_for_invalid_payload H fuel
          (if parent.difficulty = 0 then parent_hash else 0)).getD 0)) := by
  simp only [prepare_invalid_response, hpar, SealedBlock.is_zero_difficulty]
  by_cases hd : parent.difficulty = 0
  · simp [hd, PayloadStatus.from_status, PayloadStatus.with_latest_valid_hash,
      PayloadStatus.new]
  · simp [hd, PayloadStatus.from_status, PayloadStatus.with_latest_valid_hash,
      PayloadStatus.new]

/-- Witness for the amended C8 at `hPowNonzero`: the parent has
difficulty 3, so the walk starts from the zero hash and the response
carries latest valid hash 0. -/
theorem prepare_invalid_response_pow_substitution_witness :
    prepare_invalid_response hPowNonzero 5 5 =
      PayloadStatus.new (.invalid .linksToRejectedPayload)
        (some ((latest_valid_hash_for_invalid_payload hPowNonzero 5
          (if (SealedBlock.mk 5 4 1 3).difficulty = 0 then 5 else 0)).getD 0)) :=
  prepare_invalid_response_pow_substitution hPowNonzero 5 5 ⟨5, 4, 1, 3⟩ rfl

/-! ### Reached unwraps (claim C10) -/

/-- Claim C10 evaluated on the code: a well-formed payload whose block
fails sender recovery reaches the `.unwrap()` on block insertion with an
error value — `on_new_payload` panics instead of returning a result. -/
theorem sender_recovery_failure_panics :
    hSenderFail.ensure_well_formed_payload ⟨4, 0⟩ none = .ok blkA ∧
    hSenderFail.recover_senders blkA = none ∧
    on_new_payload hSenderFail 5 ⟨4, 0⟩ none = .error .panic :=
  ⟨rfl, rfl, rfl⟩

end EngineTree
